import Mathlib

/-!
Shallow embedding of the job-cache reconciliation and batched-analysis
pipeline of the `jobOpeningNotify` repository, together with proofs of the
spec's claims about it.

The embedding follows the Python source:
* `src/job_system/core/job_models.py` (`JobItem`, `JobList`),
* `src/job_system/core/job_matcher.py` (`JobMatcher`),
* `src/job_system/scripts/analyze_matches.py` (`main`),
* `src/job_analyzer_integrated.py` (`IntegratedJobAnalyzer`).

Modelling conventions: Python `Optional[T]` becomes `Option T`; Python dicts
for enrichment results become a record whose possibly-absent keys are
`Option` fields; numeric scores are modelled by exact rationals `ℚ`;
mutation of `self.items` becomes explicit state passing.  External effects
(the Anthropic API call, the regex/JSON parse, `time.strftime`, file and
terminal I/O) are parameters of the embedded functions.
-/

namespace JobNotify

/-- An enrichment result ("match analysis"), modelling the Python dict built
either from the scoring-service JSON response or by
`JobMatcher._get_fallback_analysis` (`job_system/core/job_matcher.py`,
lines 154-169).  Keys that are absent in some schemas are `Option` fields:
`role_compatibility` is absent in the legacy two-field schema, and `failed`
models the presence of an explicit `"failed"` key, which no code path of the
repository ever writes (no constructor of an analysis dict in `src/`
contains a `"failed"` entry). -/
structure MatchAnalysis where
  experience_level_match : ℚ
  role_compatibility : Option ℚ
  skills_match : ℚ
  interest_alignment : ℚ
  overall_fit : ℚ
  experience_gap : Option String
  key_strengths : List String
  major_concerns : List String
  excitement_factor : String
  one_line_summary : String
  would_interview : Bool
  analysis_date : String
  failed : Option Bool
deriving DecidableEq, Repr

/-- A job posting, modelling `JobItem` (`job_system/core/job_models.py`,
lines 12-89).  `JobItem.__init__` always sets `self.date` to a string (the
scrape timestamp, defaulting to `datetime.now(...)`), so `date : String`;
the other optional attributes stay `Option String`.  `source_data` is an
opaque key/value bag. -/
structure JobItem where
  title : String
  link : String
  company : String
  team : Option String
  date : String
  description : Option String
  requirements : Option String
  location : Option String
  posting_date : Option String
  match_analysis : Option MatchAnalysis
  source_data : List (String × String)
deriving DecidableEq, Repr

/-- The store, modelling `JobList` (`job_system/core/job_models.py`,
line 92): a mutable list of `JobItem`s, here passed explicitly. -/
structure JobList where
  items : List JobItem
deriving DecidableEq, Repr

/-- The dict `\x7bjob.link: job for job in self.items\x7d` followed by `.get(l)`
(`job_models.py`, lines 146 and 151): a Python dict comprehension keeps the
LAST item for a repeated key, so the lookup finds the last item whose link
is `l`. -/
def existingByLink (items : List JobItem) (l : String) : Option JobItem :=
  items.reverse.find? (fun j => j.link == l)

/-- Return value of `JobList.add_jobs` together with the post-state of
`self.items`. -/
structure AddResult where
  store : JobList
  newly_added : List JobItem
  updated : List JobItem
deriving DecidableEq, Repr

/-- One iteration of the `for new_job in new_jobs` loop of
`JobList.add_jobs` (`job_models.py`, lines 150-161).  `ebl` is the
`existing_by_link` dict, which the source builds once before the loop and
never updates. -/
def addStep (ebl : String → Option JobItem) (s : AddResult) (n : JobItem) :
    AddResult :=
  match ebl n.link with
  | some existing =>
    -- job exists: preserve match analysis, replace the stored entry in place
    let n' := { n with match_analysis := existing.match_analysis }
    { s with
      store := ⟨s.store.items.map (fun j => if j.link != n.link then j else n')⟩
      updated := s.updated ++ [n'] }
  | none =>
    -- completely new job: append
    { s with
      store := ⟨s.store.items ++ [n]⟩
      newly_added := s.newly_added ++ [n] }

/-- Method `JobList.add_jobs` (`job_models.py`, lines 141-163): merge freshly
scraped jobs into the store, preserving existing match analysis, returning
`(newly_added, updated)` alongside the mutated store. -/
def JobList.add_jobs (jl : JobList) (new_jobs : List JobItem) : AddResult :=
  new_jobs.foldl (addStep (existingByLink jl.items)) ⟨jl, [], []⟩

/-- Return value of `JobList.remove_jobs_not_in_list` together with the
post-state of `self.items`. -/
structure RemoveResult where
  store : JobList
  removed : List JobItem
deriving DecidableEq, Repr

/-- Python `str.lower()` (ASCII case), character-wise; equivalent to
`String.toLower` but kernel-computable. -/
def pyLower (s : String) : String := ⟨s.data.map Char.toLower⟩

/-- The keep/remove decision of the loop body of
`JobList.remove_jobs_not_in_list` (`job_models.py`, lines 186-193):
`if company and job.company.lower() != company.lower()` keeps jobs of other
companies (note Python truthiness: `company = None` and `company = ""` both
disable the scoping), `elif job.link in current_links` keeps current jobs,
`else` removes. -/
def keepJob (current_links : List String) (company : Option String)
    (j : JobItem) : Bool :=
  match company with
  | some c =>
    if c != "" && pyLower j.company != pyLower c then true
    else current_links.contains j.link
  | none => current_links.contains j.link

/-- Method `JobList.remove_jobs_not_in_list` (`job_models.py`, lines 177-196):
one pass over `self.items` partitioning into `remaining_jobs` (kept, in
order) and `removed_jobs` (returned, in order). -/
def JobList.remove_jobs_not_in_list (jl : JobList)
    (current_jobs : List JobItem) (company : Option String) : RemoveResult :=
  let current_links := current_jobs.map (·.link)
  { store := ⟨jl.items.filter (keepJob current_links company)⟩
    removed := jl.items.filter (fun j => !(keepJob current_links company j)) }

/-- The eligibility test of `JobList.get_unanalyzed_jobs` (`job_models.py`,
line 171): `job.match_analysis is None and job.description` — by Python
truthiness a `None` or EMPTY description fails the test. -/
def unanalyzedPred (j : JobItem) : Bool :=
  j.match_analysis.isNone &&
    (match j.description with
     | none => false
     | some d => !(d.isEmpty))

/-- Method `JobList.get_unanalyzed_jobs` (`job_models.py`, lines 169-171). -/
def JobList.get_unanalyzed_jobs (jl : JobList) : List JobItem :=
  jl.items.filter unanalyzedPred

/-- Method `JobList.get_analyzed_jobs` (`job_models.py`, lines 173-175). -/
def JobList.get_analyzed_jobs (jl : JobList) : List JobItem :=
  jl.items.filter (fun j => j.match_analysis.isSome)

/-- Method `JobMatcher._get_fallback_analysis` (`job_system/core/job_matcher.py`,
lines 154-169): the fallback analysis dict used when the scoring call or its
parse fails.  `today` models `time.strftime` on the current date.  Note the
dict has NO `"failed"` key: `failed := none`. -/
def getFallbackAnalysis (today : String) : MatchAnalysis where
  experience_level_match := 0
  role_compatibility := some 0
  skills_match := 0
  interest_alignment := 0
  overall_fit := 0
  experience_gap := some "Analysis failed"
  key_strengths := []
  major_concerns := ["Analysis failed"]
  excitement_factor := "Could not analyze"
  one_line_summary := "Analysis failed - API error"
  would_interview := false
  analysis_date := today
  failed := none

/-- The response-repair logic of `JobMatcher.analyze_job_batch`
(`job_system/core/job_matcher.py`, lines 118-152).  `parsed = some l` models
a response whose regex-extracted JSON array parsed to the list `l`;
`parsed = none` models every failure branch (no JSON array found,
`json.JSONDecodeError`, or an API exception), each of which returns one
fallback per batch member.  On `some l`: if the count mismatches, the
`while` loop pads with fallbacks and the slice `analyses[:len(jobs_batch)]`
truncates extras. -/
def analyzeJobBatchResults (jobs_batch : List JobItem) (today : String)
    (parsed : Option (List MatchAnalysis)) : List MatchAnalysis :=
  match parsed with
  | none => jobs_batch.map (fun _ => getFallbackAnalysis today)
  | some analyses =>
    if analyses.length == jobs_batch.length then analyses
    else
      (analyses ++
        List.replicate (jobs_batch.length - analyses.length)
          (getFallbackAnalysis today)).take jobs_batch.length

/-- The balanced-score computation inside
`JobMatcher.generate_recommendations` (`job_system/core/job_matcher.py`,
lines 281-293): new-format records (those with a `role_compatibility` key)
get `0.3*skills + 0.3*experience + 0.4*role_compatibility`; legacy records
get `(skills + interest) / 2`.  The source stores the value back into the
dict on every ranking pass; the computation itself is this pure function.
Arithmetic is modelled exactly over `ℚ`. -/
def balancedScore (a : MatchAnalysis) : ℚ :=
  match a.role_compatibility with
  | some rc =>
    a.skills_match * 0.3 + a.experience_level_match * 0.3 + rc * 0.4
  | none => (a.skills_match + a.interest_alignment) / 2

/-- Python list slicing `xs[:m]` for an `int` bound `m` (negative bounds
count from the end, clamped at 0). -/
def pySliceTo (xs : List α) (m : Int) : List α :=
  if 0 ≤ m then xs.take m.toNat else xs.take (xs.length - (-m).toNat)

/-- The selection step of `JobMatcher.analyze_job_list`
(`job_system/core/job_matcher.py`, lines 178-183):
`unanalyzed_jobs = job_list.get_unanalyzed_jobs()` then
`if max_jobs: unanalyzed_jobs = unanalyzed_jobs[:max_jobs]` — by Python
truthiness `max_jobs = None` and `max_jobs = 0` both skip the truncation. -/
def selectJobsForAnalysis (jl : JobList) (max_jobs : Option Int) :
    List JobItem :=
  let unanalyzed := jl.get_unanalyzed_jobs
  match max_jobs with
  | none => unanalyzed
  | some m => if m != 0 then pySliceTo unanalyzed m else unanalyzed

/-- The `range(0, len(xs), bs)` slicing of `JobMatcher.analyze_job_list`
(lines 208-209) and `IntegratedJobAnalyzer.analyze_and_update_cache`
(lines 194-195): consecutive batches of size `bs` (last one may be
smaller).  `bs = 0` is a Python `ValueError`; modelled as no batches. -/
def batchesOfAux (bs : Nat) : Nat → List α → List (List α)
  | _, [] => []
  | 0, _ :: _ => []
  | fuel + 1, x :: rest =>
    (x :: rest).take bs :: batchesOfAux bs fuel (rest.drop (bs - 1))

/-- Here `batchesOf bs xs` is the list of consecutive slices
`xs[i:i+bs]` for `i in range(0, len(xs), bs)`; the fuel `xs.length` is
enough because each step with `bs ≥ 1` shortens the list. -/
def batchesOf (bs : Nat) (xs : List α) : List (List α) :=
  if bs = 0 then [] else batchesOfAux bs xs.length xs

/-- Assignment `job.match_analysis = analysis` for one job of a batch
(`job_matcher.py`, lines 220-221): attach the scoring result.  `oracle`
models the external scoring service as a deterministic per-job result. -/
def enrichJob (oracle : JobItem → MatchAnalysis) (j : JobItem) : JobItem :=
  { j with match_analysis := some (oracle j) }

/-- Effect of one batch's `for job, analysis in zip(batch_jobs,
batch_analyses): job.match_analysis = analysis` on the store: the batch
members are aliases of store entries, so the corresponding store entries are
updated in place.  Aliasing is modelled by value equality (batch members are
drawn from `items`). -/
def applyBatch (oracle : JobItem → MatchAnalysis) (batch : List JobItem)
    (items : List JobItem) : List JobItem :=
  items.map (fun j => if j ∈ batch then enrichJob oracle j else j)

/-- In-memory store and last-persisted (on-disk) store during an
enrichment run. -/
structure RunState where
  memory : JobList
  disk : JobList
deriving DecidableEq, Repr

/-- One batch iteration of `JobMatcher.analyze_job_list`
(`job_system/core/job_matcher.py`, lines 208-228): analyze the batch and
write results into the in-memory job objects.  The loop body contains NO
call to `save_cache`; the only persistence in this pipeline is the single
`job_list.save_cache(args.cache_file)` in `analyze_matches.main`
(lines 102-104) AFTER `analyze_job_list` has returned. -/
def coreBatchStep (oracle : JobItem → MatchAnalysis) (s : RunState)
    (batch : List JobItem) : RunState :=
  { s with memory := ⟨applyBatch oracle batch s.memory.items⟩ }

/-- One batch iteration of `IntegratedJobAnalyzer.analyze_and_update_cache`
(`job_analyzer_integrated.py`, lines 194-217): analyze the batch, write
results into the in-memory job objects, then `job_list.save_cache(...)` —
"Save progress after each batch" — before the rate-limit sleep. -/
def integratedBatchStep (oracle : JobItem → MatchAnalysis) (s : RunState)
    (batch : List JobItem) : RunState :=
  let m : JobList := ⟨applyBatch oracle batch s.memory.items⟩
  { memory := m, disk := m }

/-- The core pipeline (`analyze_matches.main` driving
`JobMatcher.analyze_job_list`) interrupted after `k` completed batches:
the first `k` batches of the selected jobs are analyzed in memory, and the
disk copy is whatever was loaded at the start, because no save happens
until the whole run finishes.  The interactive cost confirmation is
modelled as answered `y`. -/
def coreRunAborted (oracle : JobItem → MatchAnalysis) (bs : Nat)
    (max_jobs : Option Int) (jl : JobList) (k : Nat) : RunState :=
  ((batchesOf bs (selectJobsForAnalysis jl max_jobs)).take k).foldl
    (coreBatchStep oracle) ⟨jl, jl⟩

/-- Method `IntegratedJobAnalyzer.analyze_and_update_cache` interrupted after `k`
completed batches: each completed batch was persisted before the next
started.  Selection there is `find_unanalyzed_jobs`
(`job_analyzer_integrated.py`, lines 33-42), the same truthiness test as
`get_unanalyzed_jobs`, followed by the same `if max_jobs:` prefix
truncation (lines 169-170). -/
def integratedRunAborted (oracle : JobItem → MatchAnalysis) (bs : Nat)
    (max_jobs : Option Int) (jl : JobList) (k : Nat) : RunState :=
  ((batchesOf bs (selectJobsForAnalysis jl max_jobs)).take k).foldl
    (integratedBatchStep oracle) ⟨jl, jl⟩

/-- Return values of one reconciliation pass. -/
structure ReconcileResult where
  store : JobList
  added : List JobItem
  removed : List JobItem
deriving DecidableEq, Repr

/-- One reconciliation pass as performed by `scrape_company`
(`job_system/scripts/scrape_all.py`, lines 31-35): `job_list.add_jobs(
current_jobs)` followed by `job_list.remove_jobs_not_in_list(current_jobs,
company_name)` on the same freshly scraped list. -/
def reconcile (jl : JobList) (current_jobs : List JobItem)
    (company : Option String) : ReconcileResult :=
  let a := jl.add_jobs current_jobs
  let r := a.store.remove_jobs_not_in_list current_jobs company
  ⟨r.store, a.newly_added, r.removed⟩

/-- Builder for concrete sample postings used in witnesses and
counterexamples. -/
def mkSampleJob (t l c : String) (d : Option String)
    (ma : Option MatchAnalysis) : JobItem :=
  ⟨t, l, c, none, "2024-01-01T00:00:00+00:00", d, none, none, none, ma, []⟩

/-- A concrete genuine (non-fallback) enrichment result. -/
def sampleAnalysis : MatchAnalysis :=
  ⟨60, some 70, 80, 50, 65, none, ["python"], [], "interesting", "good fit",
   true, "2024-01-01", none⟩

/-- A posting already in the store, enriched. -/
def storedJob : JobItem :=
  mkSampleJob "ML Engineer" "https://acme/jobs/1" "acme"
    (some "does ML") (some sampleAnalysis)

/-- A freshly scraped record for the same link as `storedJob`: new title,
null description, no enrichment yet. -/
def scrapedJob : JobItem :=
  { mkSampleJob "Machine Learning Engineer II" "https://acme/jobs/1" "acme"
      none none with
    date := "2025-03-04T00:00:00+00:00" }

/-- A freshly scraped record with a brand-new link. -/
def freshJob : JobItem :=
  mkSampleJob "Data Engineer" "https://acme/jobs/2" "acme"
    (some "does data") none

/-- Two scraped records sharing one brand-new link. -/
def dupJobA : JobItem :=
  mkSampleJob "Researcher" "https://acme/jobs/dup" "acme" none none

/-- Second scraped record with the same link as `dupJobA`. -/
def dupJobB : JobItem :=
  mkSampleJob "Researcher (Senior)" "https://acme/jobs/dup" "acme" none none

/-- A posting of another company, enriched, sitting in the store. -/
def otherCompanyJob : JobItem :=
  mkSampleJob "Platform Engineer" "https://beta/jobs/9" "beta"
    (some "platform work") (some sampleAnalysis)

/-- A posting whose description is present but EMPTY. -/
def emptyDescJob : JobItem :=
  mkSampleJob "Ghost Role" "https://acme/jobs/ghost" "acme" (some "") none

/-- Two un-enriched postings with descriptions, for enrichment runs. -/
def pendingJob1 : JobItem :=
  mkSampleJob "Backend Engineer" "https://acme/jobs/3" "acme"
    (some "backend work") none

/-- Second un-enriched posting with a description. -/
def pendingJob2 : JobItem :=
  mkSampleJob "Frontend Engineer" "https://acme/jobs/4" "acme"
    (some "frontend work") none

/-- A new-schema enrichment fixture: skills 80, experience 60, role
compatibility 40 (the spec's worked example). -/
def detailedAnalysis : MatchAnalysis :=
  ⟨60, some 40, 80, 50, 65, none, [], [], "e", "s", true, "2024-01-01", none⟩

/-- A legacy-schema enrichment fixture: no `role_compatibility` key,
skills 80, interest 60. -/
def legacyAnalysis : MatchAnalysis :=
  ⟨0, none, 80, 60, 65, none, [], [], "e", "s", true, "2023-01-01", none⟩

/-! ### Helper lemmas about `existingByLink` -/

lemma existingByLink_mem {items : List JobItem} {l : String} {e : JobItem}
    (h : existingByLink items l = some e) : e ∈ items ∧ e.link = l := by
  refine ⟨List.mem_reverse.1 (List.mem_of_find?_eq_some h), ?_⟩
  simpa using List.find?_some h

lemma existingByLink_isSome_iff {items : List JobItem} {l : String} :
    (existingByLink items l).isSome ↔ l ∈ items.map (·.link) := by
  simp only [existingByLink, List.find?_isSome, List.mem_reverse,
    List.mem_map, beq_iff_eq]

lemma existingByLink_eq_none_iff {items : List JobItem} {l : String} :
    existingByLink items l = none ↔ l ∉ items.map (·.link) := by
  rw [← existingByLink_isSome_iff, ← Option.not_isSome_iff_eq_none]

lemma find?_link_nodup {xs : List JobItem} {e : JobItem}
    (hnd : (xs.map (·.link)).Nodup) (he : e ∈ xs) :
    xs.find? (fun j => j.link == e.link) = some e := by
  induction xs with
  | nil => cases he
  | cons x xs ih =>
    rw [List.map_cons, List.nodup_cons] at hnd
    rcases List.mem_cons.1 he with rfl | hmem
    · simp
    · have hx : ¬(x.link == e.link) = true := by
        simp only [beq_iff_eq]
        intro hx
        exact hnd.1 (hx ▸ List.mem_map_of_mem (·.link) hmem)
      rw [show List.find? (fun j => j.link == e.link) (x :: xs) =
          List.find? (fun j => j.link == e.link) xs from
        List.find?_cons_of_neg xs hx]
      exact ih hnd.2 hmem

lemma existingByLink_nodup {items : List JobItem} {e : JobItem}
    (hnd : (items.map (·.link)).Nodup) (he : e ∈ items) :
    existingByLink items e.link = some e := by
  unfold existingByLink
  apply find?_link_nodup
  · rw [List.map_reverse]
    exact List.nodup_reverse.2 hnd
  · exact List.mem_reverse.2 he

lemma filter_link_nodup {xs : List JobItem} {e : JobItem}
    (hnd : (xs.map (·.link)).Nodup) (he : e ∈ xs) :
    xs.filter (fun j => j.link == e.link) = [e] := by
  induction xs with
  | nil => cases he
  | cons x xs ih =>
    rw [List.map_cons, List.nodup_cons] at hnd
    rcases List.mem_cons.1 he with rfl | hmem
    · rw [List.filter_cons_of_pos (by simp)]
      have hnil : xs.filter (fun j => j.link == e.link) = [] := by
        rw [List.filter_eq_nil_iff]
        intro j hj
        simp only [beq_iff_eq]
        intro hl
        exact hnd.1 (hl ▸ List.mem_map_of_mem (·.link) hj)
      rw [hnil]
    · have hx : ¬(x.link == e.link) = true := by
        simp only [beq_iff_eq]
        intro hx
        exact hnd.1 (hx ▸ List.mem_map_of_mem (·.link) hmem)
      rw [show List.filter (fun j => j.link == e.link) (x :: xs) =
          List.filter (fun j => j.link == e.link) xs from
        List.filter_cons_of_neg hx]
      exact ih hnd.2 hmem

/-! ### Helper lemmas about the `add_jobs` fold -/

lemma addStep_map_link (ebl : String → Option JobItem) (s : AddResult)
    (n : JobItem) :
    (addStep ebl s n).store.items.map (·.link) =
      s.store.items.map (·.link) ++
        (match ebl n.link with | none => [n.link] | some _ => []) := by
  cases h : ebl n.link with
  | none => simp [addStep, h]
  | some e =>
    simp only [addStep, h, List.append_nil, List.map_map]
    apply List.map_congr_left
    intro j _
    by_cases hj : j.link = n.link
    · simp [Function.comp, hj]
    · simp [Function.comp, bne_iff_ne, hj]

lemma addFold_map_link (ebl : String → Option JobItem) (L : List JobItem)
    (s : AddResult) :
    (L.foldl (addStep ebl) s).store.items.map (·.link) =
      s.store.items.map (·.link) ++
        (L.filter (fun n => (ebl n.link).isNone)).map (·.link) := by
  induction L generalizing s with
  | nil => simp
  | cons n L ih =>
    rw [List.foldl_cons, ih, addStep_map_link, List.filter_cons]
    cases h : ebl n.link <;> simp [h]

lemma addFold_newly_added (ebl : String → Option JobItem) (L : List JobItem)
    (s : AddResult) :
    (L.foldl (addStep ebl) s).newly_added =
      s.newly_added ++ L.filter (fun n => (ebl n.link).isNone) := by
  induction L generalizing s with
  | nil => simp
  | cons n L ih =>
    rw [List.foldl_cons, ih, List.filter_cons]
    cases h : ebl n.link <;> simp [addStep, h]

lemma addFold_mem (ebl : String → Option JobItem) (L : List JobItem)
    (s : AddResult) (j : JobItem)
    (hj : j ∈ (L.foldl (addStep ebl) s).store.items) :
    j ∈ s.store.items ∨ j.link ∈ L.map (·.link) := by
  induction L generalizing s with
  | nil => exact Or.inl hj
  | cons n L ih =>
    rw [List.foldl_cons] at hj
    rcases ih _ hj with h1 | h1
    · cases h : ebl n.link with
      | some e =>
        simp only [addStep, h] at h1
        rcases List.mem_map.1 h1 with ⟨j0, hj0, rfl⟩
        by_cases hl : j0.link = n.link
        · right
          simp [hl]
        · left
          simpa [bne_iff_ne, hl] using hj0
      | none =>
        simp only [addStep, h] at h1
        rcases List.mem_append.1 h1 with h2 | h2
        · exact Or.inl h2
        · right
          rcases List.mem_singleton.1 h2 with rfl
          simp
    · right
      rw [List.map_cons]
      exact List.mem_cons_of_mem _ h1

lemma filter_map_pred_comm {α : Type} {f : α → α} {p : α → Bool}
    (h : ∀ j, p (f j) = p j) (xs : List α) :
    (xs.map f).filter p = (xs.filter p).map f := by
  induction xs with
  | nil => rfl
  | cons x xs ih =>
    simp only [List.map_cons, List.filter_cons, h x]
    cases hx : p x <;> simp [ih]

lemma addStep_filter_link {ebl : String → Option JobItem} {l : String}
    {e : JobItem} (he : ebl l = some e) (s : AddResult) (n : JobItem)
    (c : JobItem)
    (hc : s.store.items.filter (fun j => j.link == l) = [c]) :
    (addStep ebl s n).store.items.filter (fun j => j.link == l) =
      [if n.link == l then { n with match_analysis := e.match_analysis }
       else c] := by
  have hcl : c.link = l := by
    have hcm : c ∈ s.store.items.filter (fun j => j.link == l) := by
      rw [hc]; exact List.mem_singleton_self c
    simpa using List.of_mem_filter hcm
  cases h : ebl n.link with
  | none =>
    have hnl : (n.link == l) = false := by
      rw [beq_eq_false_iff_ne]
      intro hEq
      rw [hEq, he] at h
      cases h
    simp only [addStep, h, List.filter_append, hc, hnl, if_false]
    simp [hnl]
  | some ex =>
    by_cases hnl : n.link = l
    · have hex : ex = e := by
        rw [hnl] at h
        rw [he] at h
        exact Option.some_inj.1 h.symm
      have hcn : c.link = n.link := by rw [hcl, hnl]
      have hcond : (n.link == l) = true := by simp [hnl]
      simp only [addStep, h]
      rw [filter_map_pred_comm, hc]
      · simp [hcn, hcond, hex]
      · intro j
        by_cases hj : j.link = n.link
        · simp [hj, bne_iff_ne, hnl]
        · simp [bne_iff_ne, hj]
    · have hcond : (n.link == l) = false := beq_eq_false_iff_ne.2 hnl
      have hcn : c.link ≠ n.link := by rw [hcl]; exact fun hx => hnl hx.symm
      simp only [addStep, h]
      rw [filter_map_pred_comm, hc]
      · simp [bne_iff_ne, hcn, hcond]
      · intro j
        by_cases hj : j.link = n.link
        · have h1 : (j.link == l) = false := by
            rw [beq_eq_false_iff_ne, hj]
            exact hnl
          simp [hj, bne_iff_ne, hnl, h1]
        · simp [bne_iff_ne, hj]

lemma addFold_filter_link {ebl : String → Option JobItem} {l : String}
    {e : JobItem} (he : ebl l = some e) (L : List JobItem) (s : AddResult)
    (c : JobItem)
    (hc : s.store.items.filter (fun j => j.link == l) = [c]) :
    (L.foldl (addStep ebl) s).store.items.filter (fun j => j.link == l) =
      [match L.reverse.find? (fun j => j.link == l) with
       | some m => { m with match_analysis := e.match_analysis }
       | none => c] := by
  induction L generalizing s c with
  | nil => simpa using hc
  | cons n L ih =>
    rw [List.foldl_cons, ih _ _ (addStep_filter_link he s n c hc),
      List.reverse_cons, List.find?_append]
    cases hfind : L.reverse.find? (fun j => j.link == l) with
    | some m => simp [hfind]
    | none =>
      cases hnl : (n.link == l) <;> simp [hfind, hnl]

/-- Shared characterization of a merged entry: if the store's links are
pairwise distinct, the scraped list's links are pairwise distinct, `e` is in
the store, and `n` is a scraped record with `n.link = e.link`, then after
`add_jobs` the store has exactly one entry for that link, namely the
scraped record with the pre-merge enrichment copied in. -/
lemma add_jobs_merged_entry (jl : JobList) (L : List JobItem)
    (e n : JobItem) (h1 : (jl.items.map (·.link)).Nodup)
    (h2 : (L.map (·.link)).Nodup) (he : e ∈ jl.items) (hn : n ∈ L)
    (hl : n.link = e.link) :
    (jl.add_jobs L).store.items.filter (fun j => j.link == e.link) =
      [{ n with match_analysis := e.match_analysis }] := by
  unfold JobList.add_jobs
  have hebl : existingByLink jl.items e.link = some e :=
    existingByLink_nodup h1 he
  have hc : jl.items.filter (fun j => j.link == e.link) = [e] :=
    filter_link_nodup h1 he
  rw [addFold_filter_link hebl L _ e hc]
  have hfind : L.reverse.find? (fun j => j.link == e.link) = some n := by
    rw [← hl]
    apply find?_link_nodup
    · rw [List.map_reverse]
      exact List.nodup_reverse.2 h2
    · exact List.mem_reverse.2 hn
  rw [hfind]

/-! ### Helper lemmas about `keepJob` -/

lemma string_contains_of_mem {l : List String} {a : String} (h : a ∈ l) :
    l.contains a = true :=
  List.elem_eq_true_of_mem h

lemma keepJob_of_contains {links : List String} {company : Option String}
    {j : JobItem} (h : links.contains j.link = true) :
    keepJob links company j = true := by
  cases company with
  | none => exact h
  | some c =>
    show (if (c != "" && pyLower j.company != pyLower c) = true then true
          else links.contains j.link) = true
    split
    · rfl
    · exact h

lemma keepJob_of_other_company {links : List String} {c : String}
    {j : JobItem} (hc : c ≠ "") (hj : pyLower j.company ≠ pyLower c) :
    keepJob links (some c) j = true := by
  have hcond : (c != "" && pyLower j.company != pyLower c) = true := by
    simp [bne_iff_ne, hc, hj]
  simp [keepJob, hcond]

lemma keepJob_false_company {links : List String} {c : String} {j : JobItem}
    (hc : c ≠ "") (h : keepJob links (some c) j = false) :
    pyLower j.company = pyLower c := by
  by_contra hne
  rw [keepJob_of_other_company hc hne] at h
  cases h

/-! ### Claim theorems -/

/-- C2: a reconciliation pass scoped to one company keeps every entry of
any other company unchanged (whatever its link), reports only entries of
the scoped company as removed, and leaves the other companies' sublist of
the store literally equal. -/
theorem remove_jobs_scoped_frame (jl : JobList) (current : List JobItem)
    (c : String) (hc : c ≠ "") :
    (∀ j ∈ jl.items, pyLower j.company ≠ pyLower c →
        j ∈ (jl.remove_jobs_not_in_list current (some c)).store.items) ∧
    (∀ j ∈ (jl.remove_jobs_not_in_list current (some c)).removed,
        pyLower j.company = pyLower c) ∧
    (jl.remove_jobs_not_in_list current (some c)).store.items.filter
        (fun j => pyLower j.company != pyLower c) =
      jl.items.filter (fun j => pyLower j.company != pyLower c) := by
  simp only [JobList.remove_jobs_not_in_list]
  refine ⟨?_, ?_, ?_⟩
  · intro j hj hcomp
    exact List.mem_filter_of_mem hj (keepJob_of_other_company hc hcomp)
  · intro j hj
    have h := List.of_mem_filter hj
    have h2 : keepJob (current.map (·.link)) (some c) j = false := by
      simpa using h
    exact keepJob_false_company hc h2
  · rw [List.filter_filter]
    apply List.filter_congr
    intro j _
    by_cases hcomp : pyLower j.company = pyLower c
    · simp [hcomp]
    · simp [bne_iff_ne, hcomp, keepJob_of_other_company hc hcomp]

/-- Witness for C2: reconciling company "acme" with an EMPTY scrape result
leaves company "beta"'s posting in the store. -/
theorem remove_jobs_scoped_frame_witness :
    otherCompanyJob ∈
      ((JobList.mk [storedJob, otherCompanyJob]).remove_jobs_not_in_list
        [] (some "acme")).store.items := by
  have h := remove_jobs_scoped_frame ⟨[storedJob, otherCompanyJob]⟩ []
    "acme" (by decide)
  exact h.1 otherCompanyJob (by decide) (by decide)

/-- C7: reconciliation is idempotent — after one pass
(`add_jobs` then `remove_jobs_not_in_list` on the same scraped list), a
second identical pass adds nothing, removes nothing, and leaves the list of
links of the store unchanged. -/
theorem reconcile_idempotent (jl : JobList) (L : List JobItem)
    (company : Option String) :
    (reconcile (reconcile jl L company).store L company).added = [] ∧
    (reconcile (reconcile jl L company).store L company).removed = [] ∧
    (reconcile (reconcile jl L company).store L company).store.items.map
        (·.link) =
      (reconcile jl L company).store.items.map (·.link) := by
  have hjl2items : (reconcile jl L company).store.items =
      (jl.add_jobs L).store.items.filter
        (keepJob (L.map (·.link)) company) := rfl
  -- every scraped link survives the first pass
  have hmemL : ∀ n ∈ L, n.link ∈ (jl.add_jobs L).store.items.map (·.link) := by
    intro n hn
    rw [JobList.add_jobs, addFold_map_link]
    cases h : existingByLink jl.items n.link with
    | none =>
      refine List.mem_append.2 (Or.inr ?_)
      refine List.mem_map.2 ⟨n, ?_, rfl⟩
      exact List.mem_filter_of_mem hn (by simp [h])
    | some ex =>
      refine List.mem_append.2 (Or.inl ?_)
      rcases existingByLink_mem h with ⟨hex, hlink⟩
      rw [← hlink]
      exact List.mem_map_of_mem (·.link) hex
  have hmemL2 : ∀ n ∈ L,
      n.link ∈ (reconcile jl L company).store.items.map (·.link) := by
    intro n hn
    rcases List.mem_map.1 (hmemL n hn) with ⟨j, hj, hjl⟩
    have hkeep : keepJob (L.map (·.link)) company j = true := by
      apply keepJob_of_contains
      apply string_contains_of_mem
      rw [hjl]
      exact List.mem_map_of_mem (·.link) hn
    rw [hjl2items]
    exact List.mem_map.2 ⟨j, List.mem_filter_of_mem hj hkeep, hjl⟩
  have hfilter2 : L.filter (fun n =>
      (existingByLink (reconcile jl L company).store.items n.link).isNone)
      = [] := by
    rw [List.filter_eq_nil_iff]
    intro n hn
    have hs := existingByLink_isSome_iff.2 (hmemL2 n hn)
    rcases Option.isSome_iff_exists.1 hs with ⟨e, he⟩
    simp [he]
  have hadded2 :
      ((reconcile jl L company).store.add_jobs L).newly_added = [] := by
    rw [JobList.add_jobs, addFold_newly_added, hfilter2]
    rfl
  have hlinks3 :
      ((reconcile jl L company).store.add_jobs L).store.items.map (·.link) =
        (reconcile jl L company).store.items.map (·.link) := by
    rw [JobList.add_jobs, addFold_map_link, hfilter2]
    simp
  have hkeep3 : ∀ j ∈ ((reconcile jl L company).store.add_jobs L).store.items,
      keepJob (L.map (·.link)) company j = true := by
    intro j hj
    rw [JobList.add_jobs] at hj
    rcases addFold_mem _ L _ j hj with h1 | h1
    · rw [show (AddResult.mk (reconcile jl L company).store [] []).store.items
          = (reconcile jl L company).store.items from rfl, hjl2items] at h1
      exact List.of_mem_filter h1
    · apply keepJob_of_contains
      exact string_contains_of_mem h1
  have hall : ((reconcile jl L company).store.add_jobs L).store.items.filter
      (keepJob (L.map (·.link)) company) =
      ((reconcile jl L company).store.add_jobs L).store.items :=
    List.filter_eq_self.2 hkeep3
  refine ⟨hadded2, ?_, ?_⟩
  · show ((reconcile jl L company).store.add_jobs L).store.items.filter
        (fun j => !(keepJob (L.map (·.link)) company j)) = []
    rw [List.filter_eq_nil_iff]
    intro j hj
    simp [hkeep3 j hj]
  · show (((reconcile jl L company).store.add_jobs L).store.items.filter
        (keepJob (L.map (·.link)) company)).map (·.link) =
      (reconcile jl L company).store.items.map (·.link)
    rw [hall, hlinks3]

/-- C1: when a scraped record's link matches an existing store entry (store
and scrape lists having pairwise-distinct links, as the link-keyed store
invariant provides), `add_jobs` leaves exactly one entry for that link: the
scraped record — title and all other non-identity fields included, even a
null description — with the pre-merge entry's enrichment copied into it. -/
theorem add_jobs_merge_preserves_enrichment (jl : JobList)
    (L : List JobItem) (e n : JobItem)
    (h1 : (jl.items.map (·.link)).Nodup) (h2 : (L.map (·.link)).Nodup)
    (he : e ∈ jl.items) (hn : n ∈ L) (hl : n.link = e.link) :
    (jl.add_jobs L).store.items.filter (fun j => j.link == e.link) =
      [{ n with match_analysis := e.match_analysis }] :=
  add_jobs_merged_entry jl L e n h1 h2 he hn hl

/-- Witness for C1 at a concrete store and scrape (the scraped record has a
null description, yet the enrichment survives). -/
theorem add_jobs_merge_preserves_enrichment_witness :
    (JobList.add_jobs ⟨[storedJob, otherCompanyJob]⟩
        [scrapedJob, freshJob]).store.items.filter
        (fun j => j.link == storedJob.link) =
      [{ scrapedJob with match_analysis := storedJob.match_analysis }] :=
  add_jobs_merge_preserves_enrichment ⟨[storedJob, otherCompanyJob]⟩
    [scrapedJob, freshJob] storedJob scrapedJob (by decide) (by decide)
    (by decide) (by decide) (by decide)

/-- Counterexample to C9 as stated: merging a fresh scrape of the same link
OVERWRITES the stored entry's `date` (first_seen) with the scraped record's
`date`; only `match_analysis` is preserved by `add_jobs`. -/
theorem add_jobs_first_seen_cex :
    storedJob.date = "2024-01-01T00:00:00+00:00" ∧
    (JobList.add_jobs ⟨[storedJob]⟩ [scrapedJob]).store.items.map (·.date) =
      ["2025-03-04T00:00:00+00:00"] ∧
    ("2025-03-04T00:00:00+00:00" : String) ≠ "2024-01-01T00:00:00+00:00" := by
  refine ⟨rfl, ?_, by decide⟩
  decide

/-- C9 (amended): `date` is set at creation, but a later merge of the same
link REPLACES it with the scraped record's `date` — after `add_jobs` the
surviving entry for the link carries the scraped `date` and the pre-merge
enrichment; no field other than `match_analysis` is preserved. -/
theorem add_jobs_merge_date_from_scrape (jl : JobList) (L : List JobItem)
    (e n : JobItem) (h1 : (jl.items.map (·.link)).Nodup)
    (h2 : (L.map (·.link)).Nodup) (he : e ∈ jl.items) (hn : n ∈ L)
    (hl : n.link = e.link) :
    ∀ r ∈ (jl.add_jobs L).store.items, r.link = e.link →
      r.date = n.date ∧ r.match_analysis = e.match_analysis := by
  intro r hr hrl
  have hmem : r ∈ (jl.add_jobs L).store.items.filter
      (fun j => j.link == e.link) :=
    List.mem_filter_of_mem hr (by simp [hrl])
  rw [add_jobs_merged_entry jl L e n h1 h2 he hn hl] at hmem
  rcases List.mem_singleton.1 hmem with rfl
  exact ⟨rfl, rfl⟩

/-- Witness for the amended C9 at a concrete merge. -/
theorem add_jobs_merge_date_from_scrape_witness :
    ({ scrapedJob with
        match_analysis := storedJob.match_analysis } : JobItem).date =
        scrapedJob.date ∧
    ({ scrapedJob with
        match_analysis := storedJob.match_analysis } : JobItem).match_analysis =
        storedJob.match_analysis :=
  add_jobs_merge_date_from_scrape ⟨[storedJob]⟩ [scrapedJob] storedJob
    scrapedJob (by decide) (by decide) (by decide) (by decide) (by decide)
    { scrapedJob with match_analysis := storedJob.match_analysis }
    (by decide) (by decide)

/-- C10: for a store with pairwise-distinct links and a link `l` not in the
store, `add_jobs` appends EVERY scraped record with link `l` (the identity
index is built once, before the loop) and reports each as newly added — two
duplicate scraped records leave two store entries for one link — while a
scrape whose links are pairwise distinct preserves the store's
link-uniqueness invariant. -/
theorem add_jobs_duplicate_links (jl : JobList) (L : List JobItem)
    (l : String) (h1 : (jl.items.map (·.link)).Nodup)
    (h0 : l ∉ jl.items.map (·.link)) :
    (((jl.add_jobs L).newly_added.map (·.link)).count l =
        (L.map (·.link)).count l ∧
      ((jl.add_jobs L).store.items.map (·.link)).count l =
        (L.map (·.link)).count l) ∧
    ((L.map (·.link)).Nodup →
      ((jl.add_jobs L).store.items.map (·.link)).Nodup) := by
  have hebl : existingByLink jl.items l = none :=
    existingByLink_eq_none_iff.2 h0
  have hcnt : ((L.filter (fun n =>
      (existingByLink jl.items n.link).isNone)).map (·.link)).count l =
      (L.map (·.link)).count l := by
    rw [List.count_eq_countP, List.count_eq_countP, List.countP_map,
      List.countP_map, List.countP_filter]
    apply List.countP_congr
    intro n _
    by_cases hn : n.link = l
    · simp [Function.comp, hn, hebl]
    · simp [Function.comp, hn]
  refine ⟨⟨?_, ?_⟩, ?_⟩
  · rw [JobList.add_jobs, addFold_newly_added]
    simpa using hcnt
  · rw [JobList.add_jobs, addFold_map_link]
    have h0' : ((⟨jl, [], []⟩ : AddResult).store.items.map (·.link)).count l
        = 0 := List.count_eq_zero.2 h0
    rw [List.count_append, h0', Nat.zero_add]
    exact hcnt
  · intro h2
    rw [JobList.add_jobs, addFold_map_link]
    apply List.Nodup.append h1
    · exact h2.sublist (List.Sublist.map (·.link) (List.filter_sublist L))
    · intro a ha hb
      rcases List.mem_map.1 hb with ⟨n, hn, rfl⟩
      have hp := List.of_mem_filter hn
      rw [Option.isNone_iff_eq_none, existingByLink_eq_none_iff] at hp
      exact hp ha

/-- Witness for C10: two scraped records sharing one new link are both
appended and both counted as added. -/
theorem add_jobs_duplicate_links_witness :
    ((JobList.add_jobs ⟨[storedJob]⟩
        [dupJobA, dupJobB]).newly_added.map (·.link)).count
        "https://acme/jobs/dup" = 2 ∧
    ((JobList.add_jobs ⟨[storedJob]⟩
        [dupJobA, dupJobB]).store.items.map (·.link)).count
        "https://acme/jobs/dup" = 2 := by
  have h := add_jobs_duplicate_links ⟨[storedJob]⟩ [dupJobA, dupJobB]
    "https://acme/jobs/dup" (by decide) (by decide)
  exact ⟨h.1.1.trans (by decide), h.1.2.trans (by decide)⟩

lemma map_const_eq_replicate {α β : Type} (xs : List α) (b : β) :
    xs.map (fun _ => b) = List.replicate xs.length b := by
  induction xs with
  | nil => rfl
  | cons x xs ih => simp [ih, List.replicate_succ]

/-- C4: the balanced score is computed by schema detection — the three-term
weighted formula when `role_compatibility` is present, the legacy two-field
average when it is absent — and recomputation on the same sub-scores always
yields the same value. -/
theorem balanced_score_formula (a : MatchAnalysis) :
    (∀ rc : ℚ, a.role_compatibility = some rc →
        balancedScore a =
          0.3 * a.skills_match + 0.3 * a.experience_level_match + 0.4 * rc) ∧
    (a.role_compatibility = none →
        balancedScore a = (a.skills_match + a.interest_alignment) / 2) ∧
    (∀ b : MatchAnalysis, a.skills_match = b.skills_match →
        a.experience_level_match = b.experience_level_match →
        a.interest_alignment = b.interest_alignment →
        a.role_compatibility = b.role_compatibility →
        balancedScore a = balancedScore b) := by
  refine ⟨?_, ?_, ?_⟩
  · intro rc h
    simp only [balancedScore, h]
    ring
  · intro h
    simp [balancedScore, h]
  · intro b hs he hi hr
    cases hb : b.role_compatibility with
    | none =>
      have hra : a.role_compatibility = none := hr.trans hb
      simp [balancedScore, hra, hb, hs, hi]
    | some rc =>
      have hra : a.role_compatibility = some rc := hr.trans hb
      simp [balancedScore, hra, hb, hs, he]

/-- Witness for C4: the spec's literal fixtures — skills 80, experience 60,
role compatibility 40 gives 58; legacy skills 80, interest 60 gives 70. -/
theorem balanced_score_formula_witness :
    balancedScore detailedAnalysis = 58 ∧ balancedScore legacyAnalysis = 70 := by
  constructor
  · have h := (balanced_score_formula detailedAnalysis).1 40 rfl
    rw [h]
    norm_num [detailedAnalysis]
  · have h := (balanced_score_formula legacyAnalysis).2.1 rfl
    rw [h]
    norm_num [legacyAnalysis]

/-- C5: whatever the scoring response looks like, the analysis list finally
zipped with a batch has exactly the batch's length — short responses are
padded at the end with fallbacks, long ones are truncated, and an
unparseable response yields one fallback per batch member. -/
theorem analyze_batch_zip_safe (batch : List JobItem) (today : String)
    (parsed : Option (List MatchAnalysis)) :
    (analyzeJobBatchResults batch today parsed).length = batch.length ∧
    (∀ l, parsed = some l → l.length ≤ batch.length →
        analyzeJobBatchResults batch today parsed =
          l ++ List.replicate (batch.length - l.length)
            (getFallbackAnalysis today)) ∧
    (∀ l, parsed = some l → batch.length ≤ l.length →
        analyzeJobBatchResults batch today parsed = l.take batch.length) ∧
    (parsed = none →
        analyzeJobBatchResults batch today parsed =
          List.replicate batch.length (getFallbackAnalysis today)) := by
  refine ⟨?_, ?_, ?_, ?_⟩
  · cases parsed with
    | none => simp [analyzeJobBatchResults]
    | some l =>
      simp only [analyzeJobBatchResults]
      by_cases h : l.length = batch.length
      · simp [h]
      · have hbeq : (l.length == batch.length) = false := by simp [h]
        simp only [hbeq, Bool.false_eq_true, if_false, List.length_take,
          List.length_append, List.length_replicate]
        omega
  · intro l hp hle
    subst hp
    simp only [analyzeJobBatchResults]
    by_cases h : l.length = batch.length
    · simp [h]
    · have hbeq : (l.length == batch.length) = false := by simp [h]
      simp only [hbeq, Bool.false_eq_true, if_false]
      apply List.take_of_length_le
      simp
      omega
  · intro l hp hge
    subst hp
    simp only [analyzeJobBatchResults]
    by_cases h : l.length = batch.length
    · simp [h]
    · have hbeq : (l.length == batch.length) = false := by simp [h]
      have hz : batch.length - l.length = 0 := by omega
      simp [hbeq, hz]
  · intro hp
    subst hp
    simp only [analyzeJobBatchResults]
    exact map_const_eq_replicate batch _

/-- Witness for C5: a 2-job batch whose response parsed to a single
analysis is padded with one fallback. -/
theorem analyze_batch_zip_safe_witness :
    analyzeJobBatchResults [pendingJob1, pendingJob2] "2024-01-01"
        (some [sampleAnalysis]) =
      [sampleAnalysis, getFallbackAnalysis "2024-01-01"] := by
  have h := (analyze_batch_zip_safe [pendingJob1, pendingJob2] "2024-01-01"
    (some [sampleAnalysis])).2.1 [sampleAnalysis] rfl (by decide)
  rw [h]
  decide

/-- Counterexample to C6 as stated: the fallback analysis dict carries NO
`failed=true` marker — the code never writes a `failed` key at all. -/
theorem fallback_failed_flag_cex :
    (getFallbackAnalysis "2024-01-01").failed = none ∧
    (getFallbackAnalysis "2024-01-01").failed ≠ some true :=
  ⟨rfl, by decide⟩

/-- C6 (amended): every fallback result has all five numeric sub-scores
equal to zero, but it is marked only textually (summary "Analysis failed -
API error", concerns ["Analysis failed"]); there is no explicit `failed`
flag. -/
theorem fallback_all_zero_with_textual_marker (today : String) :
    (getFallbackAnalysis today).skills_match = 0 ∧
    (getFallbackAnalysis today).experience_level_match = 0 ∧
    (getFallbackAnalysis today).role_compatibility = some 0 ∧
    (getFallbackAnalysis today).interest_alignment = 0 ∧
    (getFallbackAnalysis today).overall_fit = 0 ∧
    (getFallbackAnalysis today).would_interview = false ∧
    (getFallbackAnalysis today).one_line_summary =
      "Analysis failed - API error" ∧
    (getFallbackAnalysis today).major_concerns = ["Analysis failed"] ∧
    (getFallbackAnalysis today).failed = none :=
  ⟨rfl, rfl, rfl, rfl, rfl, rfl, rfl, rfl, rfl⟩

/-- Counterexample to C8 as stated: a present-but-EMPTY description is not
selected (Python truthiness), and `max_postings = 0` does not truncate the
selection to zero elements (`if max_jobs:` is false at 0). -/
theorem select_eligibility_cex :
    (emptyDescJob.description = some "" ∧ emptyDescJob.match_analysis = none ∧
      JobList.get_unanalyzed_jobs ⟨[emptyDescJob]⟩ = []) ∧
    selectJobsForAnalysis ⟨[freshJob]⟩ (some 0) = [freshJob] := by
  exact ⟨⟨rfl, rfl, by decide⟩, by decide⟩

/-- C8 (amended): the postings selected for enrichment are exactly those
with a non-null, NON-EMPTY description and null enrichment, in store order;
a POSITIVE `max_postings` prefix-truncates the selection. -/
theorem select_for_enrichment_amended (jl : JobList) (m : Int)
    (hm : 0 < m) :
    selectJobsForAnalysis jl none =
      jl.items.filter (fun j => decide (j.match_analysis = none ∧
        j.description ≠ none ∧ j.description ≠ some "")) ∧
    selectJobsForAnalysis jl (some m) =
      (jl.items.filter (fun j => decide (j.match_analysis = none ∧
        j.description ≠ none ∧ j.description ≠ some ""))).take m.toNat := by
  have hfe : jl.items.filter unanalyzedPred =
      jl.items.filter (fun j => decide (j.match_analysis = none ∧
        j.description ≠ none ∧ j.description ≠ some "")) := by
    apply List.filter_congr
    intro j _
    cases hma : j.match_analysis with
    | some a => simp [unanalyzedPred, hma]
    | none =>
      cases hd : j.description with
      | none => simp [unanalyzedPred, hma, hd]
      | some d =>
        by_cases hde : d = ""
        · simp [unanalyzedPred, hma, hd, hde, String.isEmpty_iff]
        · have hie : d.isEmpty = false :=
            Bool.eq_false_iff.2 fun hT => hde ((String.isEmpty_iff d).1 hT)
          simp [unanalyzedPred, hma, hd, hde, hie]
  have hnone : selectJobsForAnalysis jl none =
      jl.items.filter unanalyzedPred := rfl
  have hne : (m != 0) = true := by
    simp only [bne_iff_ne, ne_eq]
    omega
  have hsome : selectJobsForAnalysis jl (some m) =
      pySliceTo (jl.items.filter unanalyzedPred) m := by
    simp [selectJobsForAnalysis, hne, JobList.get_unanalyzed_jobs]
  refine ⟨hnone.trans hfe, ?_⟩
  rw [hsome, pySliceTo, if_pos (le_of_lt hm), hfe]

/-- Witness for the amended C8: enriched, empty-description and
null-description postings are skipped; `max_postings = 1` keeps the first
eligible posting. -/
theorem select_for_enrichment_amended_witness :
    selectJobsForAnalysis ⟨[storedJob, freshJob, emptyDescJob, pendingJob1]⟩
        none = [freshJob, pendingJob1] ∧
    selectJobsForAnalysis ⟨[storedJob, freshJob, emptyDescJob, pendingJob1]⟩
        (some 1) = [freshJob] := by
  have h := select_for_enrichment_amended
    ⟨[storedJob, freshJob, emptyDescJob, pendingJob1]⟩ 1 (by decide)
  exact ⟨h.1.trans (by decide), h.2.trans (by decide)⟩

/-- C3 evidence: with two eligible postings and `batch_size = 1`, aborting
the core pipeline (`analyze_matches.main` driving
`JobMatcher.analyze_job_list`) after batch 1 of 2 leaves the DISK copy
exactly as loaded — no enrichment persisted, because that pipeline saves
only once, after the whole run — even though batch 1 is enriched in memory;
the legacy `IntegratedJobAnalyzer` run, which saves after every batch, has
batch 1 enriched on disk and batch 2 still null, as the claim requires. -/
theorem core_pipeline_no_incremental_persist :
    (coreRunAborted (fun _ => sampleAnalysis) 1 none
        ⟨[pendingJob1, pendingJob2]⟩ 1).disk =
      JobList.mk [pendingJob1, pendingJob2] ∧
    (coreRunAborted (fun _ => sampleAnalysis) 1 none
        ⟨[pendingJob1, pendingJob2]⟩ 1).memory.items.map
        (fun j => j.match_analysis.isSome) = [true, false] ∧
    (integratedRunAborted (fun _ => sampleAnalysis) 1 none
        ⟨[pendingJob1, pendingJob2]⟩ 1).disk.items.map
        (fun j => j.match_analysis.isSome) = [true, false] := by
  decide

end JobNotify
